import Mathlib

/-!
Verification development for the AI-agent bug-localization repository.

The Python sources are shallowly embedded as executable Lean definitions:

* Python `str` values are modelled as `List Char` (in the text-processing and
  evaluator layers) with ASCII semantics for the character classes used by the
  code's regular expressions, or as Lean `String` where only whole-string
  comparison is needed.
* `numpy` float vectors are modelled as `List ℚ` (exact rational arithmetic in
  place of IEEE doubles); `np.argsort` is modelled as a stable ascending sort,
  i.e. a sort of `(position, value)` pairs by value with ties resolved by the
  original position.
* File-system reads are modelled by passing directory contents / existence
  predicates as explicit arguments.

Scanning functions that implement `re.sub`-style passes take an explicit fuel
argument (the wrappers instantiate it with the input length, which is always
sufficient because every step consumes at least one character); this keeps all
definitions structurally recursive and kernel-computable.
-/

namespace BugLoc

/-! ### Character-level helpers (ASCII model of the `regex` character classes) -/

/-- The regex word class `\w` restricted to ASCII: alphanumeric or underscore. -/
def isWordChar (c : Char) : Bool := c.isAlphanum || c == '_'

/-! ### `preprocess_text` (src/src/tools.py lines 35-65, identically src/tools.py 32-62)

The two URL-removal substitutions, the two camel-case splitting substitutions
and the punctuation/digit squashing substitution are embedded as left-to-right
scanners with the exact (lazy/greedy) matching behaviour of the patterns
`\!\[.*?\]\(https?://\S+?\)`, `https?://\S+|www\.\S+`, `([a-z0-9])([A-Z])`,
`([A-Z]+)([A-Z][a-z])` and `[\s]+|[^\w\s]|[\d]+`. -/

/-- Literal `://` of the URL patterns. -/
def matchSlashes : List Char → Option (List Char)
| a :: b :: c :: rest => if a = ':' ∧ b = '/' ∧ c = '/' then some rest else none
| _ => none

/-- Greedy `\S+`: at least one non-whitespace character, consumed maximally. -/
def takeNS1 : List Char → Option (List Char)
| [] => none
| c :: cs => if c.isWhitespace then none else some (cs.dropWhile (fun d => !d.isWhitespace))

/-- After the literal `http`, the regex `s?://` first tries to consume an `s`. -/
def afterHttpWith (k : List Char → Option (List Char)) : List Char → Option (List Char)
| e :: rest2 => if e = 's' then (matchSlashes rest2).bind k else (matchSlashes (e :: rest2)).bind k
| [] => none

/-- `https?://\S+` at the current position. -/
def matchHttp : List Char → Option (List Char)
| a :: b :: c :: d :: rest =>
  if a = 'h' ∧ b = 't' ∧ c = 't' ∧ d = 'p' then afterHttpWith takeNS1 rest else none
| _ => none

/-- `www\.\S+` at the current position. -/
def matchWww : List Char → Option (List Char)
| a :: b :: c :: d :: rest =>
  if a = 'w' ∧ b = 'w' ∧ c = 'w' ∧ d = '.' then takeNS1 rest else none
| _ => none

/-- The alternation `https?://\S+|www\.\S+` at the current position. -/
def matchUrl (cs : List Char) : Option (List Char) :=
  (matchHttp cs).orElse (fun _ => matchWww cs)

/-- Lazy `\S+?\)` continued: stop at the first `)`, all skipped characters
non-whitespace. -/
def lazyLoop : List Char → Option (List Char)
| [] => none
| c :: cs => if c = ')' then some cs else if c.isWhitespace then none else lazyLoop cs

/-- Lazy `\S+?\)`: at least one non-whitespace character before the `)`. -/
def lazyNS : List Char → Option (List Char)
| [] => none
| c :: cs => if c.isWhitespace then none else lazyLoop cs

/-- `https?://\S+?\)` for the markdown-image pattern. -/
def mdHttpLazy : List Char → Option (List Char)
| a :: b :: c :: d :: rest =>
  if a = 'h' ∧ b = 't' ∧ c = 't' ∧ d = 'p' then afterHttpWith lazyNS rest else none
| _ => none

/-- `\]\(https?://\S+?\)` at the current position. -/
def mdClose : List Char → Option (List Char)
| a :: b :: rest => if a = ']' ∧ b = '(' then mdHttpLazy rest else none
| _ => none

/-- The lazy `.*?` scan of the markdown-image pattern: try the closing part at
every position from left to right; `.` does not match a newline. -/
def mdScan : List Char → Option (List Char)
| [] => none
| c :: cs =>
  match mdClose (c :: cs) with
  | some r => some r
  | none => if c = '\n' then none else mdScan cs

/-- `\!\[.*?\]\(https?://\S+?\)` at the current position. -/
def matchMd : List Char → Option (List Char)
| a :: b :: rest => if a = '!' ∧ b = '[' then mdScan rest else none
| _ => none

/-- `re.sub` with empty replacement for the markdown-image pattern (fuel-indexed
left-to-right scan). -/
def urlSub1F : ℕ → List Char → List Char
| 0, cs => cs
| _ + 1, [] => []
| f + 1, c :: cs =>
  match matchMd (c :: cs) with
  | some rest => urlSub1F f rest
  | none => c :: urlSub1F f cs

/-- `re.sub` with empty replacement for `https?://\S+|www\.\S+`. -/
def urlSub2F : ℕ → List Char → List Char
| 0, cs => cs
| _ + 1, [] => []
| f + 1, c :: cs =>
  match matchUrl (c :: cs) with
  | some rest => urlSub2F f rest
  | none => c :: urlSub2F f cs

/-- `re.sub(r'([a-z0-9])([A-Z])', r'\1 \2', _)`: insert a space at every
lower/digit→upper boundary, consuming both matched characters. -/
def camel1 : List Char → List Char
| a :: b :: cs =>
  if (a.isLower ∨ a.isDigit) ∧ b.isUpper then a :: ' ' :: b :: camel1 cs
  else a :: camel1 (b :: cs)
| l => l

/-- `re.sub(r'([A-Z]+)([A-Z][a-z])', r'\1 \2', _)`: a maximal run of at least two
uppercase letters followed by a lowercase letter is split before its last
uppercase letter (greedy `[A-Z]+` with one backtrack step). -/
def camel2F : ℕ → List Char → List Char
| 0, cs => cs
| _ + 1, [] => []
| f + 1, c :: cs =>
  if c.isUpper then
    match (c :: cs).dropWhile (·.isUpper) with
    | r :: rest2 =>
      if 2 ≤ ((c :: cs).takeWhile (·.isUpper)).length ∧ r.isLower then
        ((c :: cs).takeWhile (·.isUpper)).dropLast ++
          ' ' :: (((c :: cs).takeWhile (·.isUpper)).getLastD c) :: r :: camel2F f rest2
      else c :: camel2F f cs
    | [] => c :: camel2F f cs
  else c :: camel2F f cs

/-- Python `.split()`: split on maximal whitespace runs, dropping empty pieces. -/
def splitWsF : ℕ → List Char → List (List Char)
| 0, _ => []
| _ + 1, [] => []
| f + 1, c :: cs =>
  if c.isWhitespace then splitWsF f cs
  else (c :: cs.takeWhile (fun d => !d.isWhitespace)) :: splitWsF f (cs.dropWhile (fun d => !d.isWhitespace))

/-- Python `' '.join(words)`. -/
def joinSp : List (List Char) → List Char
| [] => []
| [w] => w
| w :: ws => w ++ ' ' :: joinSp ws

/-- `re.sub(r"[\s]+|[^\w\s]|[\d]+", " ", _)`: a whitespace run, a single
non-word non-whitespace character, or a digit run each become one space. -/
def squashF : ℕ → List Char → List Char
| 0, cs => cs
| _ + 1, [] => []
| f + 1, c :: cs =>
  if c.isWhitespace then ' ' :: squashF f (cs.dropWhile (·.isWhitespace))
  else if !isWordChar c then ' ' :: squashF f cs
  else if c.isDigit then ' ' :: squashF f (cs.dropWhile (·.isDigit))
  else c :: squashF f cs

/-- Stopword filter `[w for w in words if w not in stopwords]`. -/
def dropStops (sw : List (List Char)) (ws : List (List Char)) : List (List Char) :=
  ws.filter (fun w => decide (¬ w ∈ sw))

/-- The markdown-image substitution with sufficient fuel. -/
def urlSub1 (s : List Char) : List Char := urlSub1F s.length s

/-- The bare-URL substitution with sufficient fuel. -/
def urlSub2 (s : List Char) : List Char := urlSub2F s.length s

/-- The second camel-case substitution with sufficient fuel. -/
def camel2 (s : List Char) : List Char := camel2F s.length s

/-- `.replace('_', ' ')`. -/
def replUnderscore (s : List Char) : List Char :=
  s.map (fun c => if c = '_' then ' ' else c)

/-- `.lower()`. -/
def lowerStr (s : List Char) : List Char := s.map Char.toLower

/-- `.split()` with sufficient fuel. -/
def splitWs (s : List Char) : List (List Char) := splitWsF s.length s

/-- The punctuation/digit squashing substitution with sufficient fuel. -/
def squash (s : List Char) : List Char := squashF s.length s

/-- `preprocess_text` from src/src/tools.py (lines 35-65): URL stripping,
identifier splitting, lowercasing, stopword removal, punctuation/digit
squashing, a second stopword pass, and the length-≥-3 filter; the stopword
set is passed explicitly (the source loads it from a fixed file). -/
def preprocess_text (sw : List (List Char)) (s : List Char) : List Char :=
  let s6 := lowerStr (replUnderscore (camel2 (camel1 (urlSub2 (urlSub1 s)))))
  let ws := dropStops sw (splitWs s6)
  let t := squash (joinSp ws)
  let ws2 := dropStops sw (splitWs t)
  joinSp (ws2.filter (fun w => decide (3 ≤ w.length)))

/-- The token list of a query put through the Normalizer: the specification's
"query `Q` as a token list" (§4.2), i.e. the whitespace split of the
normalized text. -/
def queryTokens (sw : List (List Char)) (q : List Char) : List (List Char) :=
  splitWs (preprocess_text sw q)

/-- What `bm25_index.get_scores(bug_report_query)` actually receives when
`bug_report_query` is a Python `str` (src/src/tools.py line 255): iterating a
string yields its characters as length-one strings, so the BM25 term sequence
is the character sequence of the query. -/
def pyStrIterTokens (q : List Char) : List (List Char) :=
  q.map (fun c => [c])

/-! ### Hybrid ranker: `bug_localization_BM25_and_FAISS` (src/src/tools.py lines 232-279)

The BM25 score vector and the FAISS raw distance vector (after the
`faiss_scores_dict.get(..., 1e6)` lookup of line 265) are taken as inputs;
floats are modelled as exact rationals. -/

/-- The epsilon `1e-8` of the min-max normalizations (lines 263 and 266). -/
def eps : ℚ := 1 / 100000000

/-- `np.min` of a nonempty vector (0 on the empty vector). -/
def vmin : List ℚ → ℚ
| [] => 0
| x :: xs => xs.foldl min x

/-- `np.max` of a nonempty vector (0 on the empty vector). -/
def vmax : List ℚ → ℚ
| [] => 0
| x :: xs => xs.foldl max x

/-- `np.ptp`: max minus min. -/
def ptp (l : List ℚ) : ℚ := vmax l - vmin l

/-- `bm25_norm = (b - b.min()) / (np.ptp(b) + 1e-8)` (line 263). -/
def bm25_norm (b : List ℚ) : List ℚ :=
  b.map (fun x => (x - vmin b) / (ptp b + eps))

/-- `faiss_norm = 1 - ((d - d.min()) / (np.ptp(d) + 1e-8))` (line 266). -/
def faiss_norm (d : List ℚ) : List ℚ :=
  d.map (fun x => 1 - (x - vmin d) / (ptp d + eps))

/-- `combined_score = bm25_weight * bm25_norm + faiss_weight * faiss_norm`
(line 269). -/
def combined_score (wb wf : ℚ) (b d : List ℚ) : List ℚ :=
  List.zipWith (fun x y => wb * x + wf * y) (bm25_norm b) (faiss_norm d)

/-- Comparison used to model `np.argsort` as a stable ascending sort: sort the
`(position, value)` pairs by value, ties by original position. -/
def rLex : ℕ × ℚ → ℕ × ℚ → Prop :=
  fun p q => p.2 < q.2 ∨ (p.2 = q.2 ∧ p.1 ≤ q.1)

instance : DecidableRel rLex := fun p q => by unfold rLex; exact inferInstance

instance : IsTotal (ℕ × ℚ) rLex where
  total p q := by
    unfold rLex
    rcases lt_trichotomy p.2 q.2 with h | h | h
    · exact Or.inl (Or.inl h)
    · rcases Nat.le_total p.1 q.1 with h2 | h2
      · exact Or.inl (Or.inr ⟨h, h2⟩)
      · exact Or.inr (Or.inr ⟨h.symm, h2⟩)
    · exact Or.inr (Or.inl h)

instance : IsTrans (ℕ × ℚ) rLex where
  trans p q r := by
    unfold rLex
    rintro (h1 | ⟨e1, l1⟩) (h2 | ⟨e2, l2⟩)
    · exact Or.inl (h1.trans h2)
    · exact Or.inl (e2 ▸ h1)
    · exact Or.inl (e1 ▸ h2)
    · exact Or.inr ⟨e1.trans e2, l1.trans l2⟩

/-- `np.argsort(combined_score)` keeping the scores alongside the positions
(stable ascending sort of the enumerated score vector). -/
def sortedEnum (l : List ℚ) : List (ℕ × ℚ) :=
  List.insertionSort rLex l.enum

/-- `np.argsort(combined_score)[::-1][:top_n]`, each index paired with its
score (line 270; line 272 then reads the documents off these indices). -/
def top_indices_scored (l : List ℚ) (top_n : ℕ) : List (ℕ × ℚ) :=
  ((sortedEnum l).reverse).take top_n

/-- The ranked output of `bug_localization_BM25_and_FAISS`, as the list of
`(corpus position, fused score)` pairs in emitted order (the source then
formats each entry as a `rank,short_filename,score` line). -/
def bug_localization_BM25_and_FAISS (wb wf : ℚ) (b d : List ℚ) (top_n : ℕ) :
    List (ℕ × ℚ) :=
  top_indices_scored (combined_score wb wf b d) top_n

/-- Modelled from the spec: §4.4 step 1, min-max normalization of a score
vector with an explicit epsilon `e`. -/
def minmaxWith (e : ℚ) (l : List ℚ) : List ℚ :=
  l.map (fun x => (x - vmin l) / (vmax l - vmin l + e))

/-- Modelled from the spec: §4.4 step 2 fused with §4.3's L2 transform
`s = -d`, i.e. `w_b · minmax(b) + w_f · minmax(-d)` with the same epsilon. -/
def specFusedScore (wb wf : ℚ) (b d : List ℚ) : List ℚ :=
  List.zipWith (fun x y => wb * x + wf * y)
    (minmaxWith eps b) (minmaxWith eps (d.map (fun x => -x)))

/-! ### BM25 scoring for the empty-query claim -/

/-- Okapi k1 (spec §4.2 default). -/
def bm25_k1 : ℚ := 3 / 2

/-- Okapi b (spec §4.2 default). -/
def bm25_bp : ℚ := 3 / 4

/-- Average document length of the tokenized corpus. -/
def avgdl (corpus : List (List (List Char))) : ℚ :=
  ((corpus.map (fun doc => (doc.length : ℚ))).sum) / (corpus.length : ℚ)

/-- Modelled from the spec: §4.2's per-document BM25 score
`Σ_{t∈Q} idf(t) · tf(t,d)(k1+1) / (tf(t,d) + k1(1-b+b·dl(d)/avgdl))`; the
scoring routine itself (`rank_bm25.BM25Okapi.get_scores`) is external library
code, not under src, and its real-valued `idf` is kept abstract. -/
def bm25ScoreDoc (idf : List Char → ℚ) (corpus : List (List (List Char)))
    (q : List (List Char)) (doc : List (List Char)) : ℚ :=
  (q.map (fun t =>
    idf t * ((List.count t doc : ℚ) * (bm25_k1 + 1)) /
      ((List.count t doc : ℚ) +
        bm25_k1 * (1 - bm25_bp + bm25_bp * (doc.length : ℚ) / avgdl corpus)))).sum

/-- Modelled from the spec: §4.2's length-N score vector for a token-list
query. -/
def bm25GetScores (idf : List Char → ℚ) (corpus : List (List (List Char)))
    (q : List (List Char)) : List ℚ :=
  corpus.map (bm25ScoreDoc idf corpus q)

/-- A full localization call on a query token list: BM25 scores from the
corpus, FAISS distances supplied by the (external) dense index, then the
hybrid ranking of src/src/tools.py lines 261-272. -/
def localizeQuery (idf : List Char → ℚ) (corpus : List (List (List Char)))
    (faissDist : List ℚ) (wb wf : ℚ) (top_n : ℕ) (q : List (List Char)) :
    List (ℕ × ℚ) :=
  bug_localization_BM25_and_FAISS wb wf (bm25GetScores idf corpus q) faissDist top_n

/-! ### Evaluator: `calculate_average_precision` (src/src/evaluate2.py lines 248-256) -/

/-- The scan of `calculate_average_precision`: walk the retrieved list keeping
`(hits, precision_sum)`; on a relevant file at 0-based position `i`, increment
`hits` and add `hits / (i+1)`. -/
def apLoop (gtSet : List String) : List String → ℕ → ℕ → ℚ → ℕ × ℚ
| [], _, hits, acc => (hits, acc)
| f :: rest, i, hits, acc =>
  if f ∈ gtSet then apLoop gtSet rest (i + 1) (hits + 1) (acc + ((hits : ℚ) + 1) / ((i : ℚ) + 1))
  else apLoop gtSet rest (i + 1) hits acc

/-- Number of retrieved positions holding a relevant file. -/
def apHits (gtSet retrieved : List String) : ℕ :=
  (apLoop gtSet retrieved 0 0 0).1

/-- The sum `Σ_{hit positions} hits_so_far / rank`. -/
def apHitSum (gtSet retrieved : List String) : ℚ :=
  (apLoop gtSet retrieved 0 0 0).2

/-- `calculate_average_precision` (src/src/evaluate2.py lines 248-256):
`precision_sum / hits` if any hit, else 0. -/
def calculate_average_precision (gtSet retrieved : List String) : ℚ :=
  if 0 < apHits gtSet retrieved then apHitSum gtSet retrieved / (apHits gtSet retrieved : ℚ)
  else 0

/-! ### Evaluator: existence filtering (src/src/evaluate2.py lines 126-168 and 324-344)

The file system is an explicit predicate `fs` on (already path-joined) file
ids; the ground truth is an association list `bug_id ↦ ground-truth file
ids`. -/

/-- `existing_files`: for each bug, the ground-truth files that exist. -/
def existing_files (fs : String → Bool) (gt : List (String × List String)) :
    List (String × List String) :=
  gt.map (fun p => (p.1, p.2.filter fs))

/-- `missing_files`: for each bug, the ground-truth files that do not exist. -/
def missing_files (fs : String → Bool) (gt : List (String × List String)) :
    List (String × List String) :=
  gt.map (fun p => (p.1, p.2.filter (fun f => !fs f)))

/-- `bugs_all_missing`: bugs with ground truth but no existing file
(`len(existing) == 0 and len(gt_files) > 0`). -/
def bugs_all_missing (fs : String → Bool) (gt : List (String × List String)) :
    List String :=
  (gt.filter (fun p => (p.2.filter fs).isEmpty && !p.2.isEmpty)).map Prod.fst

/-- `bugs_some_missing`: the `elif len(missing) > 0` branch. -/
def bugs_some_missing (fs : String → Bool) (gt : List (String × List String)) :
    List String :=
  (gt.filter (fun p =>
    !((p.2.filter fs).isEmpty && !p.2.isEmpty) && !(p.2.filter (fun f => !fs f)).isEmpty)).map Prod.fst

/-- `check_source_code_existence` (lines 126-168): the four returned pieces. -/
def check_source_code_existence (fs : String → Bool) (gt : List (String × List String)) :
    List (String × List String) × List (String × List String) × List String × List String :=
  (existing_files fs gt, missing_files fs gt, bugs_all_missing fs gt, bugs_some_missing fs gt)

/-- `considered_bugs` of `evaluate_query_type` (line 328): bugs whose set of
existing ground-truth files is non-empty; `ground_truth_data` is then
`existing_files` itself (line 344). -/
def considered_bugs (fs : String → Bool) (gt : List (String × List String)) :
    List String :=
  ((existing_files fs gt).filter (fun p => decide (0 < p.2.length))).map Prod.fst

/-! ### Evaluator: result loading (src/src/evaluate2.py lines 84-123 and 330-341) -/

/-- Filename normalization of `load_search_results` (lines 112-119): drop a
leading `tables.` and turn the remaining dots except the extension dot into
path separators. -/
def normalizeResultName (s : String) : String :=
  let s1 := if s.startsWith ("tables.") then s.drop 7 else s
  let parts := s1.splitOn (".")
  if 1 < parts.length then
    String.intercalate ("/") parts.dropLast ++ "." ++ parts.getLastD ""
  else s1

/-- `load_search_results` (lines 84-123): a missing result file (`none`) yields
`[]` after a warning; otherwise each non-empty line with at least two
comma-separated fields contributes its normalized second field. -/
def load_search_results (file : Option (List String)) : List String :=
  match file with
  | none => []
  | some lines =>
    lines.filterMap (fun line =>
      let l := line.trim
      if l = "" then none
      else
        let parts := l.splitOn (",")
        if 2 ≤ parts.length then some (normalizeResultName (parts.getD 1 "").trim) else none)

/-- The `search_data` construction of `evaluate_query_type` (lines 330-341):
for each considered bug load both variants and keep the bug only if
`baseline_results and extended_results` is truthy, i.e. both lists non-empty.
`bfile`/`efile` give the contents of the per-bug result files (`none` =
missing file). -/
def build_search_data : List String → (String → Option (List String)) →
    (String → Option (List String)) → List ((String × Bool) × List String)
| [], _, _ => []
| bug :: rest, bfile, efile =>
  if load_search_results (bfile bug) ≠ [] ∧ load_search_results (efile bug) ≠ [] then
    ((bug, true), load_search_results (bfile bug)) ::
      ((bug, false), load_search_results (efile bug)) :: build_search_data rest bfile efile
  else build_search_data rest bfile efile

/-! ### `get_short_filename` (src/src/tools.py lines 281-293) -/

/-- `pathlib.Path(...).parts`: an absolute path contributes a leading `/`;
empty components and single dots are collapsed. -/
def pathParts (s : String) : List String :=
  let comps := (s.splitOn ("/")).filter (fun p => p ≠ "" && p ≠ ".")
  if s.startsWith ("/") then "/" :: comps else comps

/-- `next((i for i, part in enumerate(parts) if part.startswith("Project")), None)`. -/
def firstIdxFrom (p : String → Bool) : List String → ℕ → Option ℕ
| [], _ => none
| x :: xs, i => if p x then some i else firstIdxFrom p xs (i + 1)

/-- `get_short_filename` (lines 281-293): when a component starting with
`Project` exists, the dot-joined components after it; otherwise the Python
function reaches `return dot_path` with `dot_path` unassigned and raises
`UnboundLocalError`, modelled as `none`. -/
def get_short_filename (filename_long : String) : Option String :=
  let parts := pathParts filename_long
  match firstIdxFrom (fun p => p.startsWith ("Project")) parts 0 with
  | some i => some (String.intercalate (".") (parts.drop (i + 1)))
  | none => none

/-! ### `load_image_content` (src/src/query_constructions.py lines 4-23)

The bug directory is an association list `file name ↦ raw content`; both
strings are `List Char` so that the `strip()` calls can be reasoned about. -/

/-- Python `str.strip()`: drop whitespace from both ends. -/
def pyStrip (l : List Char) : List Char :=
  ((l.dropWhile (·.isWhitespace)).reverse.dropWhile (·.isWhitespace)).reverse

/-- Bool test that `pre` is an initial segment of `s` (Python `startswith`). -/
def startsWithL : List Char → List Char → Bool
| _, [] => true
| [], _ :: _ => false
| c :: s, p :: ps => c == p && startsWithL s ps

/-- Python `endswith`. -/
def endsWithL (s p : List Char) : Bool :=
  startsWithL s.reverse p.reverse

/-- Lexicographic comparison on code points, the order of Python `sorted` on
strings. -/
def lexLeC : List Char → List Char → Bool
| [], _ => true
| _ :: _, [] => false
| a :: as, b :: bs => if a = b then lexLeC as bs else decide (a < b)

instance : DecidableRel (fun a b : List Char => lexLeC a b = true) :=
  fun a b => inferInstanceAs (Decidable (lexLeC a b = true))

/-- The filename filter of `load_image_content` (lines 16-19):
`f.startswith(bug_id) and f.endswith("ImageContent.txt")`. -/
def matchingFiles (dir : List (List Char × List Char)) (bug_id : List Char) :
    List (List Char) :=
  (dir.map Prod.fst).filter (fun f =>
    startsWithL f bug_id && endsWithL f ('I' :: 'm' :: 'a' :: 'g' :: 'e' :: 'C' :: 'o' :: 'n' :: 't' :: 'e' :: 'n' :: 't' :: '.' :: 't' :: 'x' :: 't' :: []))

/-- `sorted(...)` over the matching filenames. -/
def sortedMatching (dir : List (List Char × List Char)) (bug_id : List Char) :
    List (List Char) :=
  List.insertionSort (fun a b : List Char => lexLeC a b = true) (matchingFiles dir bug_id)

/-- `read_file_with_fallback` (lines 4-11): read the file's content and strip
it (the encoding fallback changes only the decoding, not the text model). -/
def read_file_with_fallback (dir : List (List Char × List Char)) (name : List Char) :
    List Char :=
  pyStrip ((dir.lookup name).getD [])

/-- `load_image_content` (lines 13-23): fold `content += "\n" + read(...)` over
the sorted matching files, then strip. -/
def load_image_content (dir : List (List Char × List Char)) (bug_id : List Char) :
    List Char :=
  pyStrip ((sortedMatching dir bug_id).foldl
    (fun content f => content ++ '\n' :: read_file_with_fallback dir f) [])

/-- Newline join, the shape the claim describes. -/
def joinNl : List (List Char) → List Char
| [] => []
| [w] => w
| w :: ws => w ++ '\n' :: joinNl ws

/-- Auxiliary: the exact shape produced by the `content += "\n" + ...` fold. -/
def nlJoinAux : List (List Char) → List Char
| [] => []
| w :: ws => '\n' :: (w ++ nlJoinAux ws)

/-! ## Theorems -/

/-! ### Vector min/max lemmas for the hybrid ranker -/

lemma foldl_min_le (xs : List ℚ) : ∀ a : ℚ, xs.foldl min a ≤ a := by
  induction xs with
  | nil => intro a; exact le_refl a
  | cons x xs ih =>
    intro a
    exact le_trans (ih (min a x)) (min_le_left a x)

lemma le_foldl_max (xs : List ℚ) : ∀ a : ℚ, a ≤ xs.foldl max a := by
  induction xs with
  | nil => intro a; exact le_refl a
  | cons x xs ih =>
    intro a
    exact le_trans (le_max_left a x) (ih (max a x))

lemma vmin_le_vmax {l : List ℚ} (h : l ≠ []) : vmin l ≤ vmax l := by
  match l with
  | [] => exact absurd rfl h
  | x :: xs =>
    exact le_trans (foldl_min_le xs x) (le_foldl_max xs x)

lemma foldl_min_map_neg (xs : List ℚ) : ∀ a : ℚ,
    (xs.map (fun x => -x)).foldl min (-a) = -(xs.foldl max a) := by
  induction xs with
  | nil => intro a; rfl
  | cons x xs ih =>
    intro a
    simp only [List.map_cons, List.foldl_cons]
    rw [min_neg_neg, ih]

lemma vmin_map_neg (l : List ℚ) : vmin (l.map (fun x => -x)) = -vmax l := by
  match l with
  | [] => simp [vmin, vmax]
  | x :: xs =>
    simp only [List.map_cons, vmin, vmax]
    exact foldl_min_map_neg xs x

lemma foldl_max_map_neg (xs : List ℚ) : ∀ a : ℚ,
    (xs.map (fun x => -x)).foldl max (-a) = -(xs.foldl min a) := by
  induction xs with
  | nil => intro a; rfl
  | cons x xs ih =>
    intro a
    simp only [List.map_cons, List.foldl_cons]
    rw [max_neg_neg, ih]

lemma vmax_map_neg (l : List ℚ) : vmax (l.map (fun x => -x)) = -vmin l := by
  match l with
  | [] => simp [vmin, vmax]
  | x :: xs =>
    simp only [List.map_cons, vmin, vmax]
    exact foldl_max_map_neg xs x

lemma zipWith_congr_mem {α β γ : Type} (f g : α → β → γ) :
    ∀ (l1 : List α) (l2 : List β),
      (∀ a ∈ l1, ∀ b ∈ l2, f a b = g a b) →
      List.zipWith f l1 l2 = List.zipWith g l1 l2 := by
  intro l1
  induction l1 with
  | nil => intro l2 _; rfl
  | cons a l1 ih =>
    intro l2 h
    cases l2 with
    | nil => rfl
    | cons b l2 =>
      simp only [List.zipWith_cons_cons]
      refine congrArg₂ _ (h a (by simp) b (by simp)) (ih l2 ?_)
      intro a2 ha2 b2 hb2
      exact h a2 (by simp [ha2]) b2 (by simp [hb2])

lemma ptp_add_eps_ne {d : List ℚ} (h : d ≠ []) : vmax d - vmin d + eps ≠ 0 := by
  have h1 : vmin d ≤ vmax d := vmin_le_vmax h
  have h2 : (0 : ℚ) < eps := by norm_num [eps]
  intro hc
  nlinarith

/-- Claim C2: the fused score of `bug_localization_BM25_and_FAISS` is
`w_b · minmax_ε(b) + w_f · (1 − minmax_ε(d))`; the BM25 side is exactly the
spec's min-max form, and the inverted FAISS side differs from the spec's
`minmax_ε(−d)` by exactly the epsilon term `ε / (ptp d + ε)` at every
position, so the two fusions agree up to `w_f · ε / (ptp d + ε)`. -/
theorem c2_fused_score (wb wf : ℚ) (b d : List ℚ) :
    bm25_norm b = minmaxWith eps b ∧
    combined_score wb wf b d =
      (specFusedScore wb wf b d).map (fun x => x + wf * (eps / (ptp d + eps))) := by
  constructor
  · rfl
  · unfold combined_score specFusedScore
    rw [List.map_zipWith]
    have hneg : minmaxWith eps (d.map (fun x => -x)) =
        d.map (fun x => (vmax d - x) / (vmax d - vmin d + eps)) := by
      unfold minmaxWith
      rw [List.map_map, vmin_map_neg, vmax_map_neg]
      refine List.map_congr_left ?_
      intro x _
      simp only [Function.comp_apply]
      ring_nf
    rw [hneg]
    unfold faiss_norm
    rw [List.zipWith_map_right, List.zipWith_map_right]
    refine zipWith_congr_mem _ _ _ _ ?_
    intro a _ x hx
    have hne : vmax d - vmin d + eps ≠ 0 := ptp_add_eps_ne (by rintro rfl; cases hx)
    unfold ptp
    field_simp
    ring

/-! ### Claim C9: `get_short_filename` -/

lemma firstIdxFrom_isSome (p : String → Bool) :
    ∀ (l : List String) (i : ℕ), (firstIdxFrom p l i).isSome = l.any p := by
  intro l
  induction l with
  | nil => intro i; rfl
  | cons x xs ih =>
    intro i
    unfold firstIdxFrom
    by_cases h : p x
    · simp [h]
    · simp only [Bool.not_eq_true] at h
      simp [h, ih (i + 1)]

/-- Claim C9: `get_short_filename` produces a value exactly when some path
component starts with `Project`; on every other path the Python function
reaches `return dot_path` with the variable unassigned (an
`UnboundLocalError`), modelled as `none`. -/
theorem c9_short_filename (s : String) :
    (get_short_filename s).isSome =
      (pathParts s).any (fun p => p.startsWith ("Project")) := by
  have h := firstIdxFrom_isSome (fun p => p.startsWith ("Project")) (pathParts s) 0
  rw [← h]
  unfold get_short_filename
  cases hf : firstIdxFrom (fun p => p.startsWith ("Project")) (pathParts s) 0 with
  | some i => simp [hf]
  | none => simp [hf]

/-! ### Claim C6: average precision -/

lemma apLoop_fst (gt : List String) :
    ∀ (r : List String) (i hits : ℕ) (acc : ℚ),
      (apLoop gt r i hits acc).1 = hits + (r.filter (fun f => decide (f ∈ gt))).length := by
  intro r
  induction r with
  | nil => intro i hits acc; simp [apLoop]
  | cons f rest ih =>
    intro i hits acc
    by_cases h : f ∈ gt
    · simp only [apLoop, if_pos h, ih, List.filter_cons, decide_eq_true h]
      simp
      omega
    · simp only [apLoop, if_neg h, ih, List.filter_cons, decide_eq_false h]
      simp

lemma apLoop_nil_gt :
    ∀ (r : List String) (i hits : ℕ) (acc : ℚ), apLoop [] r i hits acc = (hits, acc) := by
  intro r
  induction r with
  | nil => intro i hits acc; rfl
  | cons f rest ih =>
    intro i hits acc
    simp only [apLoop, List.not_mem_nil, if_false, ih]

/-- Counterexample to claim C6 as stated: with ground truth `{a, b}` and the
ranking `[a]`, the code's AP is `1` (it divides by the number of hits) while
the claimed `(1/R) · Σ` with `R = 2` relevant files is `1/2`. -/
theorem c6_counterexample :
    calculate_average_precision ["a", "b"] ["a"] ≠
      (1 / ((["a", "b"] : List String).length : ℚ)) * apHitSum ["a", "b"] ["a"] := by
  have h1 : calculate_average_precision ["a", "b"] ["a"] = 1 := by
    simp [calculate_average_precision, apHits, apHitSum, apLoop]
  have h2 : apHitSum ["a", "b"] ["a"] = 1 := by
    simp [apHitSum, apLoop]
  rw [h1, h2]
  norm_num

/-- Claim C6 amended: `calculate_average_precision` divides the hit-precision
sum by the number of hits in the retrieved list, which equals the claimed
`(1/R) · Σ_{hit ranks} hits_so_far/rank` exactly when the duplicate-free
ranking contains every ground-truth file; a bug with an empty ground-truth
set (R = 0) gets AP 0. -/
theorem c6_amended (gt r : List String) :
    (gt.Nodup → r.Nodup → gt ⊆ r → gt ≠ [] →
      calculate_average_precision gt r = (1 / (gt.length : ℚ)) * apHitSum gt r) ∧
    calculate_average_precision [] r = 0 := by
  constructor
  · intro hgt hr hsub hne
    have hfst : apHits gt r = (r.filter (fun f => decide (f ∈ gt))).length := by
      unfold apHits
      rw [apLoop_fst]
      simp
    have hperm : (r.filter (fun f => decide (f ∈ gt))).Perm gt := by
      rw [List.perm_ext_iff_of_nodup (hr.filter _) hgt]
      intro a
      simp only [List.mem_filter, decide_eq_true_eq]
      exact ⟨fun h => h.2, fun h => ⟨hsub h, h⟩⟩
    have hlen : apHits gt r = gt.length := by rw [hfst, hperm.length_eq]
    have hpos : 0 < gt.length := List.length_pos.mpr hne
    unfold calculate_average_precision
    rw [hlen, if_pos hpos]
    rw [one_div_mul_eq_div]
  · unfold calculate_average_precision apHits apHitSum
    rw [apLoop_nil_gt]
    simp

/-- Witness for `c6_amended` at ground truth `[a]`, ranking `[a, b]`. -/
theorem c6_witness :
    (["a"] : List String).Nodup ∧ (["a", "b"] : List String).Nodup ∧
    (["a"] : List String) ⊆ ["a", "b"] ∧ (["a"] : List String) ≠ [] ∧
    calculate_average_precision ["a"] ["a", "b"] =
      (1 / (((["a"] : List String)).length : ℚ)) * apHitSum ["a"] ["a", "b"] ∧
    calculate_average_precision [] ["a", "b"] = 0 := by
  refine ⟨by decide, by decide, ?_, by decide, ?_, (c6_amended ["a"] ["a", "b"]).2⟩
  · intro a ha
    simp only [List.mem_singleton] at ha
    simp [ha]
  · exact (c6_amended ["a"] ["a", "b"]).1 (by decide) (by decide)
      (by intro a ha; simp only [List.mem_singleton] at ha; simp [ha]) (by decide)

/-! ### Claim C8: missing result files -/

lemma mem_build_search_data {bug : String} {v : Bool} {r : List String} :
    ∀ (considered : List String) (bfile efile : String → Option (List String)),
      ((bug, v), r) ∈ build_search_data considered bfile efile →
      load_search_results (bfile bug) ≠ [] ∧ load_search_results (efile bug) ≠ [] := by
  intro considered
  induction considered with
  | nil => intro bfile efile h; cases h
  | cons x rest ih =>
    intro bfile efile h
    unfold build_search_data at h
    by_cases hg : load_search_results (bfile x) ≠ [] ∧ load_search_results (efile x) ≠ []
    · rw [if_pos hg] at h
      simp only [List.mem_cons, Prod.mk.injEq] at h
      rcases h with ⟨⟨hb, _⟩, _⟩ | ⟨⟨hb, _⟩, _⟩ | h
      · subst hb; exact hg
      · subst hb; exact hg
      · exact ih bfile efile h
    · rw [if_neg hg] at h
      exact ih bfile efile h

/-- Counterexample to claim C8 as stated: the bug `bug1` has a missing
baseline result file (which loads as the empty list), so `evaluate_query_type`
builds an empty `search_data` — the bug is dropped from the metrics entirely
instead of being included with a zero-score ranking. -/
theorem c8_counterexample :
    build_search_data ["bug1"] (fun _ => none) (fun _ => some ["1,a.php,0.500"]) = [] := by
  unfold build_search_data
  rw [if_neg]
  · rfl
  · rintro ⟨h1, _⟩
    exact h1 rfl

/-- Claim C8 amended: a missing result file loads as the empty list, and a bug
whose baseline or extended load is empty is excluded from `search_data` (and
hence from all metrics) for that query type, rather than kept with a
zero-score ranking. -/
theorem c8_amended (considered : List String) (bfile efile : String → Option (List String))
    (bug : String) (v : Bool) (r : List String)
    (hmiss : load_search_results (bfile bug) = [] ∨ load_search_results (efile bug) = []) :
    ((bug, v), r) ∉ build_search_data considered bfile efile ∧
    load_search_results none = [] := by
  refine ⟨fun hmem => ?_, rfl⟩
  obtain ⟨h1, h2⟩ := mem_build_search_data considered bfile efile hmem
  rcases hmiss with h | h
  · exact h1 h
  · exact h2 h

/-- Witness for `c8_amended`: bug `bug1`, missing baseline file. -/
theorem c8_witness :
    (load_search_results ((fun _ : String => (none : Option (List String))) "bug1") = [] ∨
      load_search_results ((fun _ : String => some ["1,a.php,0.500"]) "bug1") = []) ∧
    ((("bug1", true), ([] : List String)) ∉
      build_search_data ["bug1"] (fun _ => none) (fun _ => some ["1,a.php,0.500"]) ∧
    load_search_results none = []) :=
  ⟨Or.inl rfl,
    c8_amended ["bug1"] (fun _ => none) (fun _ => some ["1,a.php,0.500"]) "bug1" true []
      (Or.inl rfl)⟩

/-! ### Claim C10: `load_image_content` -/

lemma foldl_nl (h : List Char → List Char) :
    ∀ (ws : List (List Char)) (a : List Char),
      ws.foldl (fun content f => content ++ '\n' :: h f) a = a ++ nlJoinAux (ws.map h) := by
  intro ws
  induction ws with
  | nil => intro a; simp [nlJoinAux]
  | cons w ws ih =>
    intro a
    simp only [List.foldl_cons, List.map_cons, nlJoinAux, ih, List.append_assoc]
    rfl

lemma nlJoinAux_cons_eq :
    ∀ (ws : List (List Char)) (w : List Char), nlJoinAux (w :: ws) = '\n' :: joinNl (w :: ws) := by
  intro ws
  induction ws with
  | nil => intro w; simp [nlJoinAux, joinNl]
  | cons w2 ws2 ih =>
    intro w
    show '\n' :: (w ++ nlJoinAux (w2 :: ws2)) = '\n' :: joinNl (w :: w2 :: ws2)
    rw [ih w2]
    rfl

lemma pyStrip_cons_nl (x : List Char) : pyStrip ('\n' :: x) = pyStrip x := by
  unfold pyStrip
  rw [List.dropWhile_cons]
  simp

/-- Claim C10: `load_image_content` strips and newline-joins the (stripped)
contents of exactly the files whose names start with the bug id and end with
`ImageContent.txt`, in sorted filename order, and returns the empty string
when no file matches. -/
theorem c10_load_image (dir : List (List Char × List Char)) (bug_id : List Char) :
    load_image_content dir bug_id =
      pyStrip (joinNl ((sortedMatching dir bug_id).map (read_file_with_fallback dir))) ∧
    (matchingFiles dir bug_id = [] → load_image_content dir bug_id = []) := by
  have hmain : load_image_content dir bug_id =
      pyStrip (joinNl ((sortedMatching dir bug_id).map (read_file_with_fallback dir))) := by
    unfold load_image_content
    rw [foldl_nl, List.nil_append]
    cases hm : (sortedMatching dir bug_id).map (read_file_with_fallback dir) with
    | nil => rfl
    | cons w ws => rw [nlJoinAux_cons_eq, pyStrip_cons_nl]
  refine ⟨hmain, fun hempty => ?_⟩
  rw [hmain]
  unfold sortedMatching
  rw [hempty]
  rfl

/-- Witness for `c10_load_image` on a directory with no matching file. -/
theorem c10_witness :
    matchingFiles [(('a' : Char) :: [], ('x' : Char) :: [])] (('b' : Char) :: []) = [] ∧
    load_image_content [(('a' : Char) :: [], ('x' : Char) :: [])] (('b' : Char) :: []) = [] :=
  ⟨by decide, (c10_load_image [(('a' : Char) :: [], ('x' : Char) :: [])] (('b' : Char) :: [])).2
    (by decide)⟩

/-! ### Claim C7: existence filtering -/

lemma keys_nodup_snd_eq :
    ∀ (gt : List (String × List String)) (b : String) (f1 f2 : List String),
      (gt.map Prod.fst).Nodup → (b, f1) ∈ gt → (b, f2) ∈ gt → f1 = f2 := by
  intro gt
  induction gt with
  | nil => intro b f1 f2 _ h1 _; cases h1
  | cons p rest ih =>
    intro b f1 f2 hnd h1 h2
    simp only [List.map_cons, List.nodup_cons] at hnd
    obtain ⟨hnotin, hnd2⟩ := hnd
    simp only [List.mem_cons] at h1 h2
    rcases h1 with h1 | h1
    · rcases h2 with h2 | h2
      · rw [← h1] at h2
        exact (Prod.mk.injEq .. ▸ h2.symm).2
      · exfalso
        apply hnotin
        have hb : b ∈ rest.map Prod.fst := List.mem_map_of_mem Prod.fst h2
        rw [← h1]
        exact hb
    · rcases h2 with h2 | h2
      · exfalso
        apply hnotin
        have hb : b ∈ rest.map Prod.fst := List.mem_map_of_mem Prod.fst h1
        rw [← h2]
        exact hb
      · exact ih b f1 f2 hnd2 h1 h2

/-- Claim C7: a ground-truth file id is kept exactly when it exists; the
relevant set the evaluator uses for a bug is exactly its existing files; a bug
enters `considered_bugs` exactly when some ground-truth file exists; a bug all
of whose ground-truth files are missing lands in `bugs_all_missing` and is
excluded from the metric computation. -/
theorem c7_existence_filter (fs : String → Bool) (gt : List (String × List String))
    (b f : String) (files : List String)
    (hmem : (b, files) ∈ gt) (hnd : (gt.map Prod.fst).Nodup) :
    ((b, files.filter fs) ∈ existing_files fs gt) ∧
    (f ∈ files.filter fs ↔ (f ∈ files ∧ fs f = true)) ∧
    (b ∈ considered_bugs fs gt ↔ files.any fs = true) ∧
    ((files ≠ [] ∧ files.any fs = false) →
      b ∈ bugs_all_missing fs gt ∧ b ∉ considered_bugs fs gt) := by
  have hex : (b, files.filter fs) ∈ existing_files fs gt :=
    List.mem_map_of_mem (fun p => (p.1, p.2.filter fs)) hmem
  have hcons : b ∈ considered_bugs fs gt ↔ files.any fs = true := by
    constructor
    · intro h
      unfold considered_bugs at h
      obtain ⟨p, hp, hpb⟩ := List.mem_map.mp h
      obtain ⟨hpe, hplen⟩ := List.mem_filter.mp hp
      obtain ⟨q, hq, hqp⟩ := List.mem_map.mp hpe
      have hq1 : q.1 = b := by rw [← hpb, ← hqp]
      have hqmem : (b, q.2) ∈ gt := by
        rw [← hq1]
        exact hq
      have hqf : q.2 = files := keys_nodup_snd_eq gt b q.2 files hnd hqmem hmem
      rw [← hqp] at hplen
      simp only [decide_eq_true_eq] at hplen
      rw [hqf] at hplen
      obtain ⟨x, hx⟩ := List.length_pos_iff_exists_mem.mp hplen
      obtain ⟨hx1, hx2⟩ := List.mem_filter.mp hx
      exact List.any_eq_true.mpr ⟨x, hx1, hx2⟩
    · intro h
      obtain ⟨x, hx1, hx2⟩ := List.any_eq_true.mp h
      unfold considered_bugs
      have hlen : 0 < (files.filter fs).length :=
        List.length_pos_iff_exists_mem.mpr ⟨x, List.mem_filter.mpr ⟨hx1, hx2⟩⟩
      have : (b, files.filter fs) ∈
          (existing_files fs gt).filter (fun p => decide (0 < p.2.length)) :=
        List.mem_filter.mpr ⟨hex, by simpa using hlen⟩
      exact List.mem_map_of_mem Prod.fst this
  refine ⟨hex, List.mem_filter, hcons, ?_⟩
  rintro ⟨hne, hall⟩
  have hfilter : files.filter fs = [] := by
    rw [List.filter_eq_nil_iff]
    intro a ha hfa
    have : files.any fs = true := List.any_eq_true.mpr ⟨a, ha, hfa⟩
    rw [hall] at this
    cases this
  constructor
  · unfold bugs_all_missing
    refine List.mem_map_of_mem Prod.fst (List.mem_filter.mpr ⟨hmem, ?_⟩)
    have hie : files.isEmpty = false := by
      cases files with
      | nil => exact absurd rfl hne
      | cons a l => rfl
    simp [hfilter, hie]
  · rw [hcons, hall]
    simp

/-- Witness for `c7_existence_filter`: one bug with one existing and one
missing ground-truth file. -/
theorem c7_witness :
    (("b1", ["a.php", "b.php"]) ∈ [("b1", ["a.php", "b.php"])]) ∧
    (([("b1", ["a.php", "b.php"])].map Prod.fst).Nodup) ∧
    ((("b1" : String), ["a.php", "b.php"].filter (fun s => s == "a.php")) ∈
        existing_files (fun s => s == "a.php") [("b1", ["a.php", "b.php"])] ∧
      (("a.php" : String) ∈ ["a.php", "b.php"].filter (fun s => s == "a.php") ↔
        (("a.php" : String) ∈ ["a.php", "b.php"] ∧ (("a.php" : String) == "a.php") = true)) ∧
      (("b1" : String) ∈ considered_bugs (fun s => s == "a.php") [("b1", ["a.php", "b.php"])] ↔
        ["a.php", "b.php"].any (fun s => s == "a.php") = true) ∧
      ((["a.php", "b.php"] ≠ ([] : List String) ∧
          ["a.php", "b.php"].any (fun s => s == "a.php") = false) →
        ("b1" : String) ∈ bugs_all_missing (fun s => s == "a.php") [("b1", ["a.php", "b.php"])] ∧
        ("b1" : String) ∉ considered_bugs (fun s => s == "a.php") [("b1", ["a.php", "b.php"])])) :=
  ⟨by decide, by decide,
    c7_existence_filter (fun s => s == "a.php") [("b1", ["a.php", "b.php"])] "b1" "a.php"
      ["a.php", "b.php"] (by decide) (by decide)⟩

/-! ### Claims C1 and C4: shape of the hybrid ranking -/

lemma ranking_length (wb wf : ℚ) (b d : List ℚ) (top_n : ℕ) :
    (bug_localization_BM25_and_FAISS wb wf b d top_n).length =
      min (min b.length d.length) top_n := by
  unfold bug_localization_BM25_and_FAISS top_indices_scored
  rw [List.length_take, List.length_reverse]
  have h : (sortedEnum (combined_score wb wf b d)).length =
      (combined_score wb wf b d).length := by
    unfold sortedEnum
    rw [(List.perm_insertionSort rLex _).length_eq, List.enum_length]
  rw [h]
  unfold combined_score bm25_norm faiss_norm
  rw [List.length_zipWith, List.length_map, List.length_map]
  exact Nat.min_comm _ _

lemma sortedEnum_pairwise (l : List ℚ) : (sortedEnum l).Pairwise rLex :=
  List.sorted_insertionSort rLex l.enum

lemma sortedEnum_fst_nodup (l : List ℚ) : ((sortedEnum l).map Prod.fst).Nodup := by
  have hp : ((sortedEnum l).map Prod.fst).Perm (l.enum.map Prod.fst) :=
    (List.perm_insertionSort rLex l.enum).map Prod.fst
  rw [List.enum_map_fst] at hp
  exact hp.nodup_iff.mpr (List.nodup_range _)

/-- Claim C1 amended: the ranking has length `min(N, top_n)` and non-increasing
scores, but equal fused scores are emitted with the *larger* corpus position
first (under the stable model of `np.argsort`: the ascending stable sort puts
tied positions in ascending order, and the `[::-1]` reversal flips them). -/
theorem c1_amended (wb wf : ℚ) (b d : List ℚ) (n top_n : ℕ)
    (hb : b.length = n) (hd : d.length = n) :
    (bug_localization_BM25_and_FAISS wb wf b d top_n).length = min n top_n ∧
    (bug_localization_BM25_and_FAISS wb wf b d top_n).Pairwise
      (fun p q => q.2 ≤ p.2 ∧ (p.2 = q.2 → q.1 < p.1)) := by
  constructor
  · rw [ranking_length, hb, hd, min_self]
  · have h1 := sortedEnum_pairwise (combined_score wb wf b d)
    have h2 : (sortedEnum (combined_score wb wf b d)).Pairwise
        (fun p q : ℕ × ℚ => p.1 ≠ q.1) :=
      List.pairwise_map.mp (sortedEnum_fst_nodup _)
    have h3 := h1.and h2
    have h4 : ((sortedEnum (combined_score wb wf b d)).reverse).Pairwise
        (fun p q : ℕ × ℚ => rLex q p ∧ q.1 ≠ p.1) :=
      List.pairwise_reverse.mpr h3
    have h5 : (bug_localization_BM25_and_FAISS wb wf b d top_n).Pairwise
        (fun p q : ℕ × ℚ => rLex q p ∧ q.1 ≠ p.1) :=
      List.Pairwise.sublist (List.take_sublist _ _) h4
    refine h5.imp ?_
    rintro p q ⟨hlex, hne⟩
    rcases hlex with hlt | ⟨heq, hle⟩
    · exact ⟨le_of_lt hlt, fun he => absurd (he ▸ hlt) (lt_irrefl _)⟩
    · exact ⟨le_of_eq heq, fun _ => lt_of_le_of_ne hle hne⟩

/-- Witness for `c1_amended` on a two-document corpus. -/
theorem c1_witness :
    (([(0 : ℚ), 1] : List ℚ).length = 2) ∧ (([(1 : ℚ), 0] : List ℚ).length = 2) ∧
    ((bug_localization_BM25_and_FAISS (1/2) (1/2) [0, 1] [1, 0] 1).length = min 2 1 ∧
      (bug_localization_BM25_and_FAISS (1/2) (1/2) [0, 1] [1, 0] 1).Pairwise
        (fun p q => q.2 ≤ p.2 ∧ (p.2 = q.2 → q.1 < p.1))) :=
  ⟨rfl, rfl, c1_amended (1/2) (1/2) [0, 1] [1, 0] 2 1 rfl rfl⟩

/-- Counterexample to claim C1's tie-break direction: on two documents with
identical BM25 scores and identical FAISS distances both fused scores are
equal, and the ranking lists position 1 before position 0 — the larger corpus
position first, not the smaller. -/
theorem c1_counterexample :
    ¬ (bug_localization_BM25_and_FAISS (1/2) (1/2) [0, 0] [5, 5] 2).Pairwise
        (fun p q : ℕ × ℚ => p.2 = q.2 → p.1 < q.1) := by
  have h1 : vmin [(0 : ℚ), 0] = 0 := by simp [vmin]
  have h2 : vmax [(0 : ℚ), 0] = 0 := by simp [vmax]
  have h3 : vmin [(5 : ℚ), 5] = 5 := by simp [vmin]
  have h4 : vmax [(5 : ℚ), 5] = 5 := by simp [vmax]
  have hc : combined_score (1/2) (1/2) [0, 0] [5, 5] = [1/2, 1/2] := by
    unfold combined_score bm25_norm faiss_norm ptp
    simp only [h1, h2, h3, h4]
    norm_num [eps]
  have hlex : rLex (0, (1 : ℚ)/2) (1, (1 : ℚ)/2) := Or.inr ⟨rfl, Nat.zero_le 1⟩
  have hr : bug_localization_BM25_and_FAISS (1/2) (1/2) [0, 0] [5, 5] 2 =
      [(1, (1 : ℚ)/2), (0, (1 : ℚ)/2)] := by
    unfold bug_localization_BM25_and_FAISS top_indices_scored sortedEnum
    rw [hc]
    have he : ([(1 : ℚ)/2, 1/2] : List ℚ).enum = [(0, (1 : ℚ)/2), (1, (1 : ℚ)/2)] := rfl
    rw [he]
    simp only [List.insertionSort, List.orderedInsert]
    rw [if_pos hlex]
    rfl
  rw [hr]
  intro hp
  have h2 := (List.pairwise_cons.mp hp).1 (0, (1 : ℚ)/2) (by simp)
  have h3 := h2 rfl
  omega

/-- Counterexample to claim C4: on a one-document corpus an empty query still
produces one ranked result line, not an empty RankedResult. -/
theorem c4_counterexample :
    localizeQuery (fun _ => 0) [[('f' : Char) :: 'o' :: 'o' :: []]] [0]
      (3/10) (7/10) 10 [] ≠ [] := by
  have h : (localizeQuery (fun _ => 0) [[('f' : Char) :: 'o' :: 'o' :: []]] [0]
      (3/10) (7/10) 10 []).length = 1 := by
    unfold localizeQuery
    rw [ranking_length]
    simp [bm25GetScores]
  intro hc
  rw [hc] at h
  cases h

/-- Claim C4 amended: localization of the empty query does not fail and
returns the usual ranking of length `min(N, top_n)` (with degenerate scores);
the result is empty only for an empty corpus or `top_n = 0`. -/
theorem c4_amended (idf : List Char → ℚ) (corpus : List (List (List Char)))
    (faissDist : List ℚ) (wb wf : ℚ) (top_n : ℕ)
    (h : faissDist.length = corpus.length) :
    (localizeQuery idf corpus faissDist wb wf top_n []).length =
      min corpus.length top_n := by
  unfold localizeQuery
  rw [ranking_length]
  unfold bm25GetScores
  rw [List.length_map, h, min_self]

/-- Witness for `c4_amended` on a one-document corpus with `top_n = 10`. -/
theorem c4_witness :
    (([(0 : ℚ)] : List ℚ).length =
      ([[('f' : Char) :: 'o' :: 'o' :: []]] : List (List (List Char))).length) ∧
    (localizeQuery (fun _ => 0) [[('f' : Char) :: 'o' :: 'o' :: []]] [0]
        (3/10) (7/10) 10 []).length =
      min ([[('f' : Char) :: 'o' :: 'o' :: []]] : List (List (List Char))).length 10 :=
  ⟨rfl, c4_amended (fun _ => 0) [[('f' : Char) :: 'o' :: 'o' :: []]] [0] (3/10) (7/10) 10 rfl⟩

/-! ### Claim C3: what BM25 scoring receives -/

/-- Claim C3 is violated by the code: `bug_localization_BM25_and_FAISS` hands
the query *string* to `bm25_index.get_scores`, which iterates it
character-by-character, so on the (already normalized) query `timeout` the
BM25 term sequence is the seven single-character strings — not the
Normalizer's token list `[timeout]` that the specification requires. -/
theorem c3_bm25_receives_chars :
    pyStrIterTokens (String.toList ("timeout")) ≠
      queryTokens [] (String.toList ("timeout")) ∧
    pyStrIterTokens (String.toList ("timeout")) =
      [['t'], ['i'], ['m'], ['e'], ['o'], ['u'], ['t']] ∧
    queryTokens [] (String.toList ("timeout")) =
      [('t' : Char) :: 'i' :: 'm' :: 'e' :: 'o' :: 'u' :: 't' :: []] := by
  refine ⟨by decide, by decide, by decide⟩

/-! ### Claim C5: idempotence of `preprocess_text`

Character toolkit: the ASCII character classes expressed through `Char.toNat`
so that range reasoning is plain `Nat` arithmetic. -/

lemma char_eq_iff_toNat (c d : Char) : c = d ↔ c.toNat = d.toNat := by
  constructor
  · rintro rfl; rfl
  · intro h; exact Char.ext (UInt32.ext h)

lemma char_isLower_iff (c : Char) : c.isLower = true ↔ 97 ≤ c.toNat ∧ c.toNat ≤ 122 := by
  simp only [Char.isLower, Bool.and_eq_true, decide_eq_true_iff, ge_iff_le]
  exact Iff.rfl

lemma char_isUpper_iff (c : Char) : c.isUpper = true ↔ 65 ≤ c.toNat ∧ c.toNat ≤ 90 := by
  simp only [Char.isUpper, Bool.and_eq_true, decide_eq_true_iff, ge_iff_le]
  exact Iff.rfl

lemma char_isDigit_iff (c : Char) : c.isDigit = true ↔ 48 ≤ c.toNat ∧ c.toNat ≤ 57 := by
  simp only [Char.isDigit, Bool.and_eq_true, decide_eq_true_iff, ge_iff_le]
  exact Iff.rfl

lemma char_isWhitespace_iff (c : Char) :
    c.isWhitespace = true ↔
      c.toNat = 32 ∨ c.toNat = 9 ∨ c.toNat = 13 ∨ c.toNat = 10 := by
  simp only [Char.isWhitespace, Bool.or_eq_true, decide_eq_true_iff]
  rw [char_eq_iff_toNat, char_eq_iff_toNat, char_eq_iff_toNat, char_eq_iff_toNat]
  have h1 : (' ' : Char).toNat = 32 := rfl
  have h2 : ('\t' : Char).toNat = 9 := rfl
  have h3 : ('\x0d' : Char).toNat = 13 := rfl
  have h4 : ('\n' : Char).toNat = 10 := rfl
  rw [h1, h2, h3, h4]
  tauto

lemma toNat_ofNat_small (n : ℕ) (h : n < 1000) : (Char.ofNat n).toNat = n := by
  have hv : n.isValidChar := Or.inl (by omega)
  rw [Char.ofNat, dif_pos hv]
  cases hv with
  | inl h2 => rfl
  | inr h2 => omega

/-- The set of characters a normalized word may contain: lowercase ASCII
letters; a normalized string additionally contains single separating
spaces. -/
def goodChar (c : Char) : Prop := c.isLower = true ∨ c = ' '

lemma goodChar_toNat {c : Char} (h : goodChar c) :
    c.toNat = 32 ∨ (97 ≤ c.toNat ∧ c.toNat ≤ 122) := by
  rcases h with h | h
  · exact Or.inr ((char_isLower_iff c).mp h)
  · subst h; exact Or.inl rfl

lemma goodChar_ne {c d : Char} (h : goodChar c)
    (hd : d.toNat ≠ 32 ∧ ¬(97 ≤ d.toNat ∧ d.toNat ≤ 122)) : c ≠ d := by
  intro he
  subst he
  rcases goodChar_toNat h with h2 | h2
  · exact hd.1 h2
  · exact hd.2 h2

lemma goodChar_not_upper {c : Char} (h : goodChar c) : c.isUpper = false := by
  rw [Bool.eq_false_iff]
  intro hu
  rw [char_isUpper_iff] at hu
  rcases goodChar_toNat h with h2 | h2 <;> omega

lemma isLower_not_ws {c : Char} (h : c.isLower = true) : c.isWhitespace = false := by
  rw [Bool.eq_false_iff]
  intro hw
  rw [char_isWhitespace_iff] at hw
  rw [char_isLower_iff] at h
  omega

lemma isLower_not_digit {c : Char} (h : c.isLower = true) : c.isDigit = false := by
  rw [Bool.eq_false_iff]
  intro hd
  rw [char_isDigit_iff] at hd
  rw [char_isLower_iff] at h
  omega

lemma isLower_not_upper {c : Char} (h : c.isLower = true) : c.isUpper = false := by
  rw [Bool.eq_false_iff]
  intro hu
  rw [char_isUpper_iff] at hu
  rw [char_isLower_iff] at h
  omega

lemma isLower_wordChar {c : Char} (h : c.isLower = true) : isWordChar c = true := by
  unfold isWordChar Char.isAlphanum Char.isAlpha
  rw [h]
  simp

lemma isLower_ne_underscore {c : Char} (h : c.isLower = true) : c ≠ '_' := by
  intro he
  rw [char_isLower_iff] at h
  rw [char_eq_iff_toNat] at he
  have h95 : ('_' : Char).toNat = 95 := rfl
  rw [h95] at he
  omega

lemma isLower_of_parts {c : Char} (hw : isWordChar c = true) (hd : c.isDigit = false)
    (hu : c.isUpper = false) (hun : c ≠ '_') : c.isLower = true := by
  unfold isWordChar Char.isAlphanum Char.isAlpha at hw
  simp only [Bool.or_eq_true, beq_iff_eq] at hw
  rcases hw with (hw | hw) | hw
  · rcases hw with hw | hw
    · rw [hu] at hw; cases hw
    · exact hw
  · rw [hd] at hw; cases hw
  · exact absurd hw hun

lemma toLower_not_upper (c : Char) : (Char.toLower c).isUpper = false := by
  unfold Char.toLower
  by_cases h : c.toNat ≥ 65 ∧ c.toNat ≤ 90
  · rw [if_pos h]
    rw [Bool.eq_false_iff]
    intro hu
    rw [char_isUpper_iff, toNat_ofNat_small (c.toNat + 32) (by omega)] at hu
    omega
  · rw [if_neg h]
    rw [Bool.eq_false_iff]
    intro hu
    rw [char_isUpper_iff] at hu
    exact h hu

lemma toLower_ne_underscore {c : Char} (h : c ≠ '_') : Char.toLower c ≠ '_' := by
  unfold Char.toLower
  by_cases hc : c.toNat ≥ 65 ∧ c.toNat ≤ 90
  · rw [if_pos hc]
    intro he
    rw [char_eq_iff_toNat, toNat_ofNat_small (c.toNat + 32) (by omega)] at he
    have h95 : ('_' : Char).toNat = 95 := rfl
    rw [h95] at he
    omega
  · rw [if_neg hc]
    exact h

lemma toLower_eq_self {c : Char} (h : c.isUpper = false) : Char.toLower c = c := by
  unfold Char.toLower
  rw [if_neg]
  intro hc
  rw [Bool.eq_false_iff] at h
  exact h ((char_isUpper_iff c).mpr hc)

/-! Identity of the URL-removal passes on already-normalized strings: such a
string contains no `!`, no `:` and no `.`, so neither pattern can match at any
position. -/

lemma matchSlashes_cons3 (a b c : Char) (r : List Char) :
    matchSlashes (a :: b :: c :: r) =
      if a = ':' ∧ b = '/' ∧ c = '/' then some r else none := rfl

lemma afterHttpWith_cons (k : List Char → Option (List Char)) (e : Char) (rest2 : List Char) :
    afterHttpWith k (e :: rest2) =
      if e = 's' then (matchSlashes rest2).bind k else (matchSlashes (e :: rest2)).bind k := rfl

lemma matchHttp_cons4 (a b c d : Char) (r : List Char) :
    matchHttp (a :: b :: c :: d :: r) =
      if a = 'h' ∧ b = 't' ∧ c = 't' ∧ d = 'p' then afterHttpWith takeNS1 r else none := rfl

lemma matchWww_cons4 (a b c d : Char) (r : List Char) :
    matchWww (a :: b :: c :: d :: r) =
      if a = 'w' ∧ b = 'w' ∧ c = 'w' ∧ d = '.' then takeNS1 r else none := rfl

lemma matchMd_cons2 (a b : Char) (r : List Char) :
    matchMd (a :: b :: r) = if a = '!' ∧ b = '[' then mdScan r else none := rfl

lemma matchSlashes_none {l : List Char} (h : ∀ c ∈ l, goodChar c) :
    matchSlashes l = none := by
  rcases l with _ | ⟨a, _ | ⟨b, _ | ⟨c, r⟩⟩⟩
  · rfl
  · rfl
  · rfl
  · rw [matchSlashes_cons3, if_neg]
    rintro ⟨ha, -, -⟩
    exact goodChar_ne (h a (by simp)) (by decide) ha

lemma afterHttpWith_none (k : List Char → Option (List Char)) {rest : List Char}
    (h : ∀ c ∈ rest, goodChar c) : afterHttpWith k rest = none := by
  rcases rest with _ | ⟨e, rest2⟩
  · rfl
  · rw [afterHttpWith_cons]
    by_cases he : e = 's'
    · rw [if_pos he, matchSlashes_none (fun c hc => h c (by simp [hc]))]
      rfl
    · rw [if_neg he, matchSlashes_none h]
      rfl

lemma matchHttp_none {l : List Char} (h : ∀ c ∈ l, goodChar c) :
    matchHttp l = none := by
  rcases l with _ | ⟨a, _ | ⟨b, _ | ⟨c, _ | ⟨d, r⟩⟩⟩⟩
  · rfl
  · rfl
  · rfl
  · rfl
  · rw [matchHttp_cons4]
    by_cases hc : a = 'h' ∧ b = 't' ∧ c = 't' ∧ d = 'p'
    · rw [if_pos hc]
      exact afterHttpWith_none takeNS1 (fun x hx => h x (by simp [hx]))
    · rw [if_neg hc]

lemma matchWww_none {l : List Char} (h : ∀ c ∈ l, goodChar c) :
    matchWww l = none := by
  rcases l with _ | ⟨a, _ | ⟨b, _ | ⟨c, _ | ⟨d, r⟩⟩⟩⟩
  · rfl
  · rfl
  · rfl
  · rfl
  · rw [matchWww_cons4, if_neg]
    rintro ⟨-, -, -, hd⟩
    exact goodChar_ne (h d (by simp)) (by decide) hd

lemma matchUrl_none {l : List Char} (h : ∀ c ∈ l, goodChar c) :
    matchUrl l = none := by
  unfold matchUrl
  rw [matchHttp_none h, matchWww_none h]
  rfl

lemma matchMd_none {l : List Char} (h : ∀ c ∈ l, goodChar c) :
    matchMd l = none := by
  rcases l with _ | ⟨a, _ | ⟨b, r⟩⟩
  · rfl
  · rfl
  · rw [matchMd_cons2, if_neg]
    rintro ⟨ha, -⟩
    exact goodChar_ne (h a (by simp)) (by decide) ha

lemma urlSub1F_succ_cons (f : ℕ) (c : Char) (cs : List Char) :
    urlSub1F (f + 1) (c :: cs) =
      match matchMd (c :: cs) with
      | some rest => urlSub1F f rest
      | none => c :: urlSub1F f cs := rfl

lemma urlSub2F_succ_cons (f : ℕ) (c : Char) (cs : List Char) :
    urlSub2F (f + 1) (c :: cs) =
      match matchUrl (c :: cs) with
      | some rest => urlSub2F f rest
      | none => c :: urlSub2F f cs := rfl

lemma urlSub1F_id : ∀ (f : ℕ) (cs : List Char), (∀ c ∈ cs, goodChar c) →
    urlSub1F f cs = cs := by
  intro f
  induction f with
  | zero => intro cs _; rfl
  | succ f ih =>
    intro cs h
    cases cs with
    | nil => rfl
    | cons c cs =>
      rw [urlSub1F_succ_cons, matchMd_none h]
      rw [ih cs (fun x hx => h x (by simp [hx]))]

lemma urlSub2F_id : ∀ (f : ℕ) (cs : List Char), (∀ c ∈ cs, goodChar c) →
    urlSub2F f cs = cs := by
  intro f
  induction f with
  | zero => intro cs _; rfl
  | succ f ih =>
    intro cs h
    cases cs with
    | nil => rfl
    | cons c cs =>
      rw [urlSub2F_succ_cons, matchUrl_none h]
      rw [ih cs (fun x hx => h x (by simp [hx]))]

lemma camel1_cons2 (a b : Char) (cs : List Char) :
    camel1 (a :: b :: cs) =
      if (a.isLower ∨ a.isDigit) ∧ b.isUpper then a :: ' ' :: b :: camel1 cs
      else a :: camel1 (b :: cs) := rfl

lemma camel1_id : ∀ (cs : List Char), (∀ c ∈ cs, goodChar c) → camel1 cs = cs := by
  intro cs
  induction cs with
  | nil => intro _; rfl
  | cons a tail ih =>
    intro h
    cases tail with
    | nil => rfl
    | cons b cs2 =>
      rw [camel1_cons2, if_neg]
      · rw [ih (fun c hc => h c (by simp [hc]))]
      · rintro ⟨-, hb⟩
        rw [goodChar_not_upper (h b (by simp))] at hb
        cases hb

lemma camel2F_succ_cons_not_upper (f : ℕ) (c : Char) (cs : List Char)
    (h : c.isUpper = false) : camel2F (f + 1) (c :: cs) = c :: camel2F f cs := by
  show (if c.isUpper then _ else c :: camel2F f cs) = c :: camel2F f cs
  rw [h]
  exact if_neg (by simp)

lemma camel2F_id : ∀ (f : ℕ) (cs : List Char), (∀ c ∈ cs, goodChar c) →
    camel2F f cs = cs := by
  intro f
  induction f with
  | zero => intro cs _; rfl
  | succ f ih =>
    intro cs h
    cases cs with
    | nil => rfl
    | cons c cs =>
      rw [camel2F_succ_cons_not_upper f c cs (goodChar_not_upper (h c (by simp)))]
      rw [ih cs (fun x hx => h x (by simp [hx]))]

lemma map_underscore_id {cs : List Char} (h : ∀ c ∈ cs, goodChar c) :
    cs.map (fun c => if c = '_' then ' ' else c) = cs := by
  have := List.map_congr_left (l := cs) (f := fun c => if c = '_' then ' ' else c)
    (g := fun c => c) ?_
  · simpa using this
  · intro c hc
    refine if_neg ?_
    exact goodChar_ne (h c hc) (by decide)

lemma map_toLower_id {cs : List Char} (h : ∀ c ∈ cs, goodChar c) :
    cs.map Char.toLower = cs := by
  have := List.map_congr_left (l := cs) (f := Char.toLower) (g := fun c => c) ?_
  · simpa using this
  · intro c hc
    exact toLower_eq_self (goodChar_not_upper (h c hc))

/-! Split/join machinery: a normalized string is the space-join of its words,
and splitting it back recovers exactly those words. -/

/-- A word of a normalized string: non-empty, all lowercase ASCII letters. -/
def goodWord (w : List Char) : Prop := w ≠ [] ∧ ∀ c ∈ w, c.isLower = true

/-- All words of a normalized string are good. -/
def goodWords (ws : List (List Char)) : Prop := ∀ w ∈ ws, goodWord w

lemma splitWsF_nil : ∀ f : ℕ, splitWsF f [] = [] := by
  intro f
  cases f with
  | zero => rfl
  | succ f => rfl

lemma takeWhile_app (p : Char → Bool) :
    ∀ (w rest : List Char), (∀ c ∈ w, p c = true) →
      List.takeWhile p (w ++ rest) = w ++ List.takeWhile p rest := by
  intro w
  induction w with
  | nil => intro rest _; rfl
  | cons c w ih =>
    intro rest h
    simp only [List.cons_append, List.takeWhile_cons, h c (by simp)]
    rw [ih rest (fun x hx => h x (by simp [hx]))]
    rfl

lemma dropWhile_app (p : Char → Bool) :
    ∀ (w rest : List Char), (∀ c ∈ w, p c = true) →
      List.dropWhile p (w ++ rest) = List.dropWhile p rest := by
  intro w
  induction w with
  | nil => intro rest _; rfl
  | cons c w ih =>
    intro rest h
    simp only [List.cons_append, List.dropWhile_cons, h c (by simp)]
    rw [ih rest (fun x hx => h x (by simp [hx]))]
    rfl

lemma notWs_of_lower {c : Char} (h : c.isLower = true) : (!c.isWhitespace) = true := by
  rw [isLower_not_ws h]
  rfl

lemma splitWsF_word_sep (f : ℕ) (c : Char) (w2 rest : List Char)
    (hc : c.isLower = true) (hw2 : ∀ x ∈ w2, x.isLower = true)
    (hr : rest = [] ∨ ∃ r2, rest = ' ' :: r2) :
    splitWsF (f + 1) ((c :: w2) ++ rest) = (c :: w2) :: splitWsF f rest := by
  show splitWsF (f + 1) (c :: (w2 ++ rest)) = _
  have hstep : splitWsF (f + 1) (c :: (w2 ++ rest)) =
      if c.isWhitespace then splitWsF f (w2 ++ rest)
      else (c :: (w2 ++ rest).takeWhile (fun d => !d.isWhitespace)) ::
        splitWsF f ((w2 ++ rest).dropWhile (fun d => !d.isWhitespace)) := rfl
  rw [hstep, isLower_not_ws hc]
  rw [if_neg (by simp)]
  rw [takeWhile_app _ w2 rest (fun x hx => notWs_of_lower (hw2 x hx))]
  rw [dropWhile_app _ w2 rest (fun x hx => notWs_of_lower (hw2 x hx))]
  have htake : rest.takeWhile (fun d => !d.isWhitespace) = [] := by
    rcases hr with rfl | ⟨r2, rfl⟩
    · rfl
    · rw [List.takeWhile_cons, if_neg (by decide)]
  have hdrop : rest.dropWhile (fun d => !d.isWhitespace) = rest := by
    rcases hr with rfl | ⟨r2, rfl⟩
    · rfl
    · rw [List.dropWhile_cons, if_neg (by decide)]
  rw [htake, hdrop, List.append_nil]

lemma splitWsF_succ_space (f : ℕ) (L : List Char) :
    splitWsF (f + 1) (' ' :: L) = splitWsF f L := by
  have hstep : splitWsF (f + 1) (' ' :: L) =
      if (' ' : Char).isWhitespace then splitWsF f L
      else (' ' :: L.takeWhile (fun d => !d.isWhitespace)) ::
        splitWsF f (L.dropWhile (fun d => !d.isWhitespace)) := rfl
  rw [hstep, if_pos (by decide)]

lemma splitWs_joinSp :
    ∀ (ws : List (List Char)) (f : ℕ), goodWords ws → (joinSp ws).length ≤ f →
      splitWsF f (joinSp ws) = ws := by
  intro ws
  induction ws with
  | nil => intro f _ _; exact splitWsF_nil f
  | cons w ws2 ih =>
    intro f hgood hf
    obtain ⟨hne, hlow⟩ := hgood w (by simp)
    obtain ⟨c, w2, rfl⟩ : ∃ c w2, w = c :: w2 := by
      cases w with
      | nil => exact absurd rfl hne
      | cons c w2 => exact ⟨c, w2, rfl⟩
    cases ws2 with
    | nil =>
      have hj : joinSp [c :: w2] = (c :: w2) ++ [] := by
        show (c :: w2) = (c :: w2) ++ []
        rw [List.append_nil]
      rw [hj] at hf ⊢
      obtain ⟨f1, rfl⟩ : ∃ f1, f = f1 + 1 := by
        cases f with
        | zero => simp at hf
        | succ f1 => exact ⟨f1, rfl⟩
      rw [splitWsF_word_sep f1 c w2 [] (hlow c (by simp))
        (fun x hx => hlow x (by simp [hx])) (Or.inl rfl)]
      rw [splitWsF_nil]
    | cons w3 ws3 =>
      have hj : joinSp ((c :: w2) :: w3 :: ws3) =
          (c :: w2) ++ (' ' :: joinSp (w3 :: ws3)) := rfl
      rw [hj] at hf ⊢
      have hlen := hf
      rw [List.length_append] at hlen
      simp only [List.length_cons] at hlen
      obtain ⟨f2, rfl⟩ : ∃ f2, f = f2 + 2 := ⟨f - 2, by omega⟩
      rw [show f2 + 2 = (f2 + 1) + 1 from rfl]
      rw [splitWsF_word_sep (f2 + 1) c w2 (' ' :: joinSp (w3 :: ws3))
        (hlow c (by simp)) (fun x hx => hlow x (by simp [hx]))
        (Or.inr ⟨joinSp (w3 :: ws3), rfl⟩)]
      rw [splitWsF_succ_space]
      rw [ih f2 (fun x hx => hgood x (by simp [hx])) (by omega)]

/-! Identity of the squashing pass on a normalized string: its characters are
lowercase letters and isolated single spaces, so every character is kept. -/

/-- No two adjacent spaces. -/
def noSS : Char → Char → Prop := fun a b => a ≠ ' ' ∨ b ≠ ' '

lemma isLower_ne_space {c : Char} (h : c.isLower = true) : c ≠ ' ' := by
  intro he
  rw [char_isLower_iff] at h
  rw [char_eq_iff_toNat] at he
  have h32 : (' ' : Char).toNat = 32 := rfl
  rw [h32] at he
  omega

lemma mem_joinSp : ∀ (ws : List (List Char)) (c : Char), c ∈ joinSp ws →
    c = ' ' ∨ ∃ w ∈ ws, c ∈ w := by
  intro ws
  induction ws with
  | nil => intro c hc; cases hc
  | cons w ws2 ih =>
    intro c hc
    cases ws2 with
    | nil => exact Or.inr ⟨w, by simp, hc⟩
    | cons w2 ws3 =>
      have hj : joinSp (w :: w2 :: ws3) = w ++ ' ' :: joinSp (w2 :: ws3) := rfl
      rw [hj, List.mem_append] at hc
      rcases hc with hc | hc
      · exact Or.inr ⟨w, by simp, hc⟩
      · rcases List.mem_cons.mp hc with hc | hc
        · exact Or.inl hc
        · rcases ih c hc with hc2 | ⟨w3, hw3, hcw3⟩
          · exact Or.inl hc2
          · exact Or.inr ⟨w3, by simp [hw3], hcw3⟩

lemma chainAux : ∀ (u rest : List Char), (∀ c ∈ u, c ≠ ' ') →
    List.Chain' noSS rest → List.Chain' noSS (u ++ rest) := by
  intro u
  induction u with
  | nil => intro rest _ h; exact h
  | cons c u2 ih =>
    intro rest hu hrest
    show List.Chain' noSS (c :: (u2 ++ rest))
    rw [List.chain'_cons']
    refine ⟨fun y _ => Or.inl (hu c (by simp)), ih rest (fun x hx => hu x (by simp [hx])) hrest⟩

lemma joinSp_cons_head (c : Char) (w2 : List Char) :
    ∀ ws : List (List Char), ∃ t, joinSp ((c :: w2) :: ws) = c :: t := by
  intro ws
  cases ws with
  | nil => exact ⟨w2, rfl⟩
  | cons w3 ws3 => exact ⟨w2 ++ ' ' :: joinSp (w3 :: ws3), rfl⟩

lemma chain_joinSp : ∀ ws : List (List Char), goodWords ws →
    List.Chain' noSS (joinSp ws) := by
  intro ws
  induction ws with
  | nil => exact fun _ => List.chain'_nil
  | cons w ws2 ih =>
    intro hgood
    obtain ⟨hne, hlow⟩ := hgood w (by simp)
    have hns : ∀ c ∈ w, c ≠ ' ' := fun c hc => isLower_ne_space (hlow c hc)
    cases ws2 with
    | nil =>
      have hj : joinSp [w] = w ++ [] := by
        show w = w ++ []
        rw [List.append_nil]
      rw [hj]
      exact chainAux w [] hns List.chain'_nil
    | cons w2 ws3 =>
      have hj : joinSp (w :: w2 :: ws3) = w ++ ' ' :: joinSp (w2 :: ws3) := rfl
      rw [hj]
      refine chainAux w (' ' :: joinSp (w2 :: ws3)) hns ?_
      rw [List.chain'_cons']
      obtain ⟨hne2, hlow2⟩ := hgood w2 (by simp)
      obtain ⟨c2, w2t, rfl⟩ : ∃ c2 w2t, w2 = c2 :: w2t := by
        cases w2 with
        | nil => exact absurd rfl hne2
        | cons c2 w2t => exact ⟨c2, w2t, rfl⟩
      obtain ⟨t, ht⟩ := joinSp_cons_head c2 w2t ws3
      refine ⟨?_, ih (fun x hx => hgood x (by simp [hx]))⟩
      intro y hy
      rw [ht] at hy
      simp only [List.head?_cons, Option.mem_def, Option.some.injEq] at hy
      subst hy
      exact Or.inr (isLower_ne_space (hlow2 c2 (by simp)))

lemma squashF_nil : ∀ f : ℕ, squashF f [] = [] := by
  intro f
  cases f with
  | zero => rfl
  | succ f => rfl

lemma squashF_succ_cons (f : ℕ) (c : Char) (cs : List Char) :
    squashF (f + 1) (c :: cs) =
      if c.isWhitespace then ' ' :: squashF f (cs.dropWhile (·.isWhitespace))
      else if !isWordChar c then ' ' :: squashF f cs
      else if c.isDigit then ' ' :: squashF f (cs.dropWhile (·.isDigit))
      else c :: squashF f cs := rfl

lemma squashF_id : ∀ (f : ℕ) (cs : List Char),
    (∀ c ∈ cs, goodChar c) → List.Chain' noSS cs → squashF f cs = cs := by
  intro f
  induction f with
  | zero => intro cs _ _; rfl
  | succ f ih =>
    intro cs hchars hchain
    cases cs with
    | nil => rfl
    | cons c cs =>
      rcases hchars c (by simp) with hc | hc
      · rw [squashF_succ_cons]
        rw [if_neg (by rw [isLower_not_ws hc]; simp)]
        rw [if_neg (by rw [isLower_wordChar hc]; simp)]
        rw [if_neg (by rw [isLower_not_digit hc]; simp)]
        rw [ih cs (fun x hx => hchars x (by simp [hx])) hchain.tail]
      · subst hc
        rw [squashF_succ_cons, if_pos (by decide)]
        cases cs with
        | nil =>
          rw [show List.dropWhile (·.isWhitespace) ([] : List Char) = [] from rfl]
          rw [squashF_nil]
        | cons d t =>
          have hd : d ≠ ' ' := by
            rcases (List.chain'_cons.mp hchain).1 with h | h
            · exact absurd rfl h
            · exact h
          have hdlow : d.isLower = true := by
            rcases hchars d (by simp) with h | h
            · exact h
            · exact absurd h hd
          rw [List.dropWhile_cons, if_neg (by rw [isLower_not_ws hdlow]; simp)]
          rw [ih (d :: t) (fun x hx => hchars x (by simp [hx])) hchain.tail]

lemma squash_joinSp (f : ℕ) (ws : List (List Char)) (h : goodWords ws) :
    squashF f (joinSp ws) = joinSp ws := by
  refine squashF_id f (joinSp ws) ?_ (chain_joinSp ws h)
  intro c hc
  rcases mem_joinSp ws c hc with hc2 | ⟨w, hw, hcw⟩
  · exact Or.inr hc2
  · exact Or.inl ((h w hw).2 c hcw)

/-! Shape of the first normalization pass: the output is a space-join of
non-empty all-lowercase words that are neither stopwords nor shorter than
three characters. -/

lemma splitWsF_succ_cons (f : ℕ) (c : Char) (cs : List Char) :
    splitWsF (f + 1) (c :: cs) =
      if c.isWhitespace then splitWsF f cs
      else (c :: cs.takeWhile (fun d => !d.isWhitespace)) ::
        splitWsF f (cs.dropWhile (fun d => !d.isWhitespace)) := rfl

lemma splitWsF_words : ∀ (f : ℕ) (l : List Char) (w : List Char),
    w ∈ splitWsF f l → w ≠ [] ∧ ∀ c ∈ w, c.isWhitespace = false ∧ c ∈ l := by
  intro f
  induction f with
  | zero => intro l w hw; rw [show splitWsF 0 l = [] from rfl] at hw; cases hw
  | succ f ih =>
    intro l w hw
    cases l with
    | nil => cases hw
    | cons c cs =>
      rw [splitWsF_succ_cons] at hw
      by_cases hc : c.isWhitespace = true
      · rw [if_pos hc] at hw
        obtain ⟨hne, hchars⟩ := ih cs w hw
        exact ⟨hne, fun x hx => ⟨(hchars x hx).1, by simp [(hchars x hx).2]⟩⟩
      · rw [if_neg hc] at hw
        rcases List.mem_cons.mp hw with hw | hw
        · subst hw
          refine ⟨by simp, ?_⟩
          intro x hx
          rcases List.mem_cons.mp hx with hx | hx
          · subst hx
            exact ⟨Bool.not_eq_true _ ▸ hc, by simp⟩
          · have hp := List.mem_takeWhile_imp hx
            simp only [Bool.not_eq_true'] at hp
            have hmem : x ∈ cs := (List.takeWhile_sublist _).subset hx
            exact ⟨hp, by simp [hmem]⟩
        · obtain ⟨hne, hchars⟩ := ih _ w hw
          refine ⟨hne, fun x hx => ⟨(hchars x hx).1, ?_⟩⟩
          have hmem : x ∈ cs := (List.dropWhile_sublist _).subset (hchars x hx).2
          simp [hmem]

lemma squashF_chars : ∀ (f : ℕ) (cs : List Char), cs.length ≤ f →
    ∀ c ∈ squashF f cs, c = ' ' ∨ (c ∈ cs ∧ isWordChar c = true ∧ c.isDigit = false) := by
  intro f
  induction f with
  | zero =>
    intro cs hf c hc
    have hcs : cs = [] := by
      cases cs with
      | nil => rfl
      | cons a l => simp at hf
    subst hcs
    cases hc
  | succ f ih =>
    intro cs hf x hx
    cases cs with
    | nil => cases hx
    | cons c cs =>
      rw [squashF_succ_cons] at hx
      by_cases h1 : c.isWhitespace = true
      · rw [if_pos h1] at hx
        rcases List.mem_cons.mp hx with hx | hx
        · exact Or.inl hx
        · have hlen : (cs.dropWhile (·.isWhitespace)).length ≤ f := by
            have := (List.dropWhile_sublist (l := cs) (·.isWhitespace)).length_le
            simp only [List.length_cons] at hf
            omega
          rcases ih _ hlen x hx with hx2 | ⟨hmem, hrest⟩
          · exact Or.inl hx2
          · exact Or.inr ⟨by simp [(List.dropWhile_sublist _).subset hmem], hrest⟩
      · rw [if_neg h1] at hx
        by_cases h2 : (!isWordChar c) = true
        · rw [if_pos h2] at hx
          rcases List.mem_cons.mp hx with hx | hx
          · exact Or.inl hx
          · have hlen : cs.length ≤ f := by
              simp only [List.length_cons] at hf
              omega
            rcases ih cs hlen x hx with hx2 | ⟨hmem, hrest⟩
            · exact Or.inl hx2
            · exact Or.inr ⟨by simp [hmem], hrest⟩
        · rw [if_neg h2] at hx
          by_cases h3 : c.isDigit = true
          · rw [if_pos h3] at hx
            rcases List.mem_cons.mp hx with hx | hx
            · exact Or.inl hx
            · have hlen : (cs.dropWhile (·.isDigit)).length ≤ f := by
                have := (List.dropWhile_sublist (l := cs) (·.isDigit)).length_le
                simp only [List.length_cons] at hf
                omega
              rcases ih _ hlen x hx with hx2 | ⟨hmem, hrest⟩
              · exact Or.inl hx2
              · exact Or.inr ⟨by simp [(List.dropWhile_sublist _).subset hmem], hrest⟩
          · rw [if_neg h3] at hx
            rcases List.mem_cons.mp hx with hx | hx
            · subst hx
              refine Or.inr ⟨by simp, ?_, ?_⟩
              · cases hbw : isWordChar x with
                | false => rw [hbw] at h2; simp at h2
                | true => rfl
              · exact Bool.not_eq_true _ ▸ h3
            · have hlen : cs.length ≤ f := by
                simp only [List.length_cons] at hf
                omega
              rcases ih cs hlen x hx with hx2 | ⟨hmem, hrest⟩
              · exact Or.inl hx2
              · exact Or.inr ⟨by simp [hmem], hrest⟩

lemma repl_ne_underscore (e : Char) : (if e = '_' then ' ' else e) ≠ '_' := by
  by_cases h : e = '_'
  · rw [if_pos h]
    decide
  · rw [if_neg h]
    exact h

lemma split_squash_words (sw : List (List Char)) (z : List Char)
    (hz : ∀ c ∈ z, c.isUpper = false ∧ c ≠ '_') (g : ℕ) (w : List Char)
    (hw : w ∈ splitWsF g (squashF (joinSp (dropStops sw (splitWsF z.length z))).length
      (joinSp (dropStops sw (splitWsF z.length z))))) :
    goodWord w := by
  obtain ⟨hne, hchars⟩ := splitWsF_words g _ w hw
  refine ⟨hne, ?_⟩
  intro c hc
  obtain ⟨hnws, hmem⟩ := hchars c hc
  rcases squashF_chars _ _ le_rfl c hmem with hsp | ⟨hmem2, hword, hdig⟩
  · subst hsp
    rw [show (' ' : Char).isWhitespace = true from rfl] at hnws
    cases hnws
  · rcases mem_joinSp _ c hmem2 with hsp | ⟨w2, hw2, hcw2⟩
    · subst hsp
      rw [show (' ' : Char).isWhitespace = true from rfl] at hnws
      cases hnws
    · have hw2s : w2 ∈ splitWsF z.length z := by
        unfold dropStops at hw2
        exact (List.mem_filter.mp hw2).1
      obtain ⟨-, hchars2⟩ := splitWsF_words z.length z w2 hw2s
      have hcz : c ∈ z := (hchars2 c hcw2).2
      obtain ⟨hnu, hnund⟩ := hz c hcz
      exact isLower_of_parts hword hdig hnu hnund

lemma lowerRepl_chars (u : List Char) :
    ∀ c ∈ lowerStr (replUnderscore u), c.isUpper = false ∧ c ≠ '_' := by
  intro c hc
  unfold lowerStr replUnderscore at hc
  obtain ⟨d, hd, rfl⟩ := List.mem_map.mp hc
  obtain ⟨e, -, rfl⟩ := List.mem_map.mp hd
  exact ⟨toLower_not_upper _, toLower_ne_underscore (repl_ne_underscore e)⟩

/-- The output of `preprocess_text` is the space-join of non-empty
all-lowercase words, none of which is a stopword or shorter than three
characters. -/
lemma preprocess_shape (sw : List (List Char)) (s : List Char) :
    ∃ ws : List (List Char), preprocess_text sw s = joinSp ws ∧ goodWords ws ∧
      ∀ w ∈ ws, ¬ w ∈ sw ∧ 3 ≤ w.length := by
  refine ⟨(dropStops sw (splitWs (squash (joinSp (dropStops sw
    (splitWs (lowerStr (replUnderscore (camel2 (camel1 (urlSub2 (urlSub1 s)))))))))))).filter
    (fun w => decide (3 ≤ w.length)), rfl, ?_, ?_⟩
  · intro w hw
    have hw2 : w ∈ dropStops sw (splitWs (squash (joinSp (dropStops sw
        (splitWs (lowerStr (replUnderscore (camel2 (camel1 (urlSub2 (urlSub1 s))))))))))) :=
      (List.mem_filter.mp hw).1
    have hw3 : w ∈ splitWs (squash (joinSp (dropStops sw
        (splitWs (lowerStr (replUnderscore (camel2 (camel1 (urlSub2 (urlSub1 s)))))))))) := by
      unfold dropStops at hw2
      exact (List.mem_filter.mp hw2).1
    exact split_squash_words sw _ (lowerRepl_chars _) _ w hw3
  · intro w hw
    obtain ⟨hw2, hlen⟩ := List.mem_filter.mp hw
    unfold dropStops at hw2
    obtain ⟨-, hsw⟩ := List.mem_filter.mp hw2
    refine ⟨?_, ?_⟩
    · simpa using hsw
    · simpa using hlen

/-- Claim C5: `preprocess_text` is idempotent — a second application to its
own output (with the same stopword set) changes nothing. -/
theorem c5_preprocess_idempotent (sw : List (List Char)) (s : List Char) :
    preprocess_text sw (preprocess_text sw s) = preprocess_text sw s := by
  obtain ⟨ws, hy, hgood, hmeta⟩ := preprocess_shape sw s
  rw [hy]
  have hchars : ∀ c ∈ joinSp ws, goodChar c := by
    intro c hc
    rcases mem_joinSp ws c hc with h | ⟨w, hw, hcw⟩
    · exact Or.inr h
    · exact Or.inl ((hgood w hw).2 c hcw)
  have h1 : urlSub1 (joinSp ws) = joinSp ws := urlSub1F_id _ _ hchars
  have h2 : urlSub2 (joinSp ws) = joinSp ws := urlSub2F_id _ _ hchars
  have h3 : camel1 (joinSp ws) = joinSp ws := camel1_id _ hchars
  have h4 : camel2 (joinSp ws) = joinSp ws := camel2F_id _ _ hchars
  have h5 : replUnderscore (joinSp ws) = joinSp ws := map_underscore_id hchars
  have h6 : lowerStr (joinSp ws) = joinSp ws := map_toLower_id hchars
  have h7 : splitWs (joinSp ws) = ws := splitWs_joinSp ws _ hgood le_rfl
  have h8 : dropStops sw ws = ws := by
    unfold dropStops
    rw [List.filter_eq_self]
    intro w hw
    simp only [decide_eq_true_iff]
    exact (hmeta w hw).1
  have h9 : squash (joinSp ws) = joinSp ws := squash_joinSp _ ws hgood
  have h10 : ws.filter (fun w => decide (3 ≤ w.length)) = ws := by
    rw [List.filter_eq_self]
    intro w hw
    simp only [decide_eq_true_iff]
    exact (hmeta w hw).2
  show preprocess_text sw (joinSp ws) = joinSp ws
  unfold preprocess_text
  simp only [h1, h2, h3, h4, h5, h6, h7, h8, h9, h10]

end BugLoc

